import Mathlib

/-!
Shallow embedding of the morphic.py scene-graph engine (src/morphic.py).

Coordinates are embedded as exact integers (`ℤ`): morphic.py drives all
geometry with pixel coordinates (pygame mouse positions and integer
extents), and every operation the verified claims touch (`+`, `-`, `min`,
`max`, comparisons) is exact Python integer arithmetic on those values.

Two complementary models of the morph tree are used:
* `MTree` — a pure inductive tree, for the structurally recursive
  operations (`all_children`, `full_bounds`, `morph_at`, `move_by`,
  `set_extent`).  A node's `parent` chain is represented by its access
  path inside the tree (`allChildrenCtx`).
* `SState` — an identifier-indexed store (`parent` map, `children`
  lists), for the pointer-mutating operations (`add_child`,
  `remove_child`, `add`, `root`, `changed`), where Python mutates
  object attributes in place.
-/

namespace Morphic

/-- Point (morphic.py lines 89-233): real-valued pair; embedded over ℤ. -/
structure Pt where
  x : ℤ
  y : ℤ
deriving DecidableEq, Repr

/-- `Point.__add__` (componentwise, Point argument case). -/
def Pt.add (a b : Pt) : Pt := ⟨a.x + b.x, a.y + b.y⟩

/-- `Point.__sub__` (componentwise, Point argument case). -/
def Pt.sub (a b : Pt) : Pt := ⟨a.x - b.x, a.y - b.y⟩

/-- `Point.__neg__`. -/
def Pt.neg (a : Pt) : Pt := ⟨-a.x, -a.y⟩

/-- `Point.max`. -/
def Pt.pmax (a b : Pt) : Pt := ⟨max a.x b.x, max a.y b.y⟩

/-- `Point.min`. -/
def Pt.pmin (a b : Pt) : Pt := ⟨min a.x b.x, min a.y b.y⟩

/-- `Point.__le__`: componentwise AND (lines 117-120). -/
def Pt.le (a b : Pt) : Bool := a.x ≤ b.x && a.y ≤ b.y

/-- `Point.__lt__`: componentwise strict AND (lines 107-110). -/
def Pt.lt (a b : Pt) : Bool := a.x < b.x && a.y < b.y

/-- Named rotation directions accepted by `Point.rotate` (line 180).
The numeric-angle branch uses `math.cos`/`math.sin` and is outside the
exact-arithmetic embedding; the three named branches are translated
exactly as written. -/
inductive Dir where
  | right
  | left
  | pi
deriving DecidableEq, Repr

/-- `Point.rotate(direction, center)` lines 180-188, named branches,
exactly as the source computes them:
`right ↦ Point(-offset.y, offset.y) + center`,
`left ↦ Point(offset.y, -offset.y) + center`,
`pi ↦ center - offset`, where `offset = self - center`. -/
def Pt.rotateNamed (p : Pt) (d : Dir) (center : Pt) : Pt :=
  let offset := p.sub center
  match d with
  | .right => (Pt.mk (-offset.y) offset.y).add center
  | .left => (Pt.mk offset.y (-offset.y)).add center
  | .pi => center.sub offset

/-- Squared Euclidean distance between two points (used to state that a
map is not a rotation about a center: rotations preserve this). -/
def Pt.sqDist (a b : Pt) : ℤ := (a.x - b.x) ^ 2 + (a.y - b.y) ^ 2

/-- Rectangle (lines 235-394): `origin` and `corner` Points. -/
structure Rect where
  origin : Pt
  corner : Pt
deriving DecidableEq, Repr

/-- `Rectangle.extent` (line 282): `corner - origin`. -/
def Rect.extent (r : Rect) : Pt := r.corner.sub r.origin

/-- `Rectangle.intersect` (lines 349-351): max of origins, min of
corners. -/
def Rect.intersect (r s : Rect) : Rect :=
  ⟨r.origin.pmax s.origin, r.corner.pmin s.corner⟩

/-- `Rectangle.merge` (lines 353-355): min of origins, max of corners. -/
def Rect.merge (r s : Rect) : Rect :=
  ⟨r.origin.pmin s.origin, r.corner.pmax s.corner⟩

/-- `Rectangle.contains_point` (lines 359-360): the Python chained
comparison `self.origin <= point < self.corner`, i.e.
`(origin ≤ point) and (point < corner)`. -/
def Rect.contains_point (r : Rect) (p : Pt) : Bool :=
  Pt.le r.origin p && Pt.lt p r.corner

/-- `Rectangle.contains_rectangle` (lines 362-364). -/
def Rect.contains_rectangle (r : Rect) (s : Rect) : Bool :=
  Pt.le r.origin s.origin && Pt.le s.corner r.corner

/-- `Rectangle.translate_by` (lines 382-385, Point argument case). -/
def Rect.translate_by (r : Rect) (d : Pt) : Rect :=
  ⟨r.origin.add d, r.corner.add d⟩

/-- Per-morph scalar state: identity (Python object identity, used by
the `is` checks in `Hand.process_mouse_up`), `bounds`, the
`is_visible` flag, whether the object is a `Shadow` instance, and the
capability predicates `wants_drop_of` / `handles_mouse_click` as they
evaluate for this morph (both are argument-independent in the source:
`Morph.wants_drop_of` returns `False`, `World.wants_drop_of` returns
`True`, `handles_mouse_click` is a constant property). -/
structure MData where
  id : ℕ
  bounds : Rect
  isVisible : Bool
  isShadow : Bool
  wantsDrop : Bool
  handlesClick : Bool
deriving DecidableEq, Repr

/-- A morph with its ordered children (index 0 back-most, last
front-most), the pure-tree view of the `Node`/`Morph` hierarchy. -/
inductive MTree where
  | node : MData → List MTree → MTree

/-- The morph's scalar data. -/
def MTree.data : MTree → MData
  | .node d _ => d

/-- The morph's ordered child list. -/
def MTree.children : MTree → List MTree
  | .node _ c => c

mutual

/-- `Node.all_children` (lines 431-437): pre-order, includes self
(`result = [self]` then `result.extend(child.all_children)` per
child); `allChildrenL` is the loop over the child list. -/
def allChildren : MTree → List MTree
  | .node d cs => .node d cs :: allChildrenL cs

/-- The `for child in self.children` loop of `all_children`. -/
def allChildrenL : List MTree → List MTree
  | [] => []
  | c :: cs => allChildren c ++ allChildrenL cs

end

mutual

/-- `Morph.full_bounds` (lines 644-649): `result = self.bounds`, then
`result = result.merge(child.full_bounds)` per child in order. -/
def fullBounds : MTree → Rect
  | .node d cs => fullBoundsL d.bounds cs

/-- The accumulating loop of `full_bounds`. -/
def fullBoundsL : Rect → List MTree → Rect
  | acc, [] => acc
  | acc, c :: cs => fullBoundsL (acc.merge (fullBounds c)) cs

end

/-- The hit-test predicate of `Morph.morph_at` (lines 835-840): the body
of the `if` in the loop, `m.full_bounds.contains_point(point) and not
isinstance(m, Shadow)`.  Note the source performs no `is_visible`
check here. -/
def hitPred (p : Pt) (m : MTree) : Bool :=
  (fullBounds m).contains_point p && !m.data.isShadow

/-- `Morph.morph_at` (lines 835-840): iterate `all_children` reversed
(`morphs[::-1]`) and return the first element satisfying the hit
predicate; the Python function implicitly returns `None` when the loop
finds nothing.  A first-match loop is exactly `List.find?`. -/
def morphAt (t : MTree) (p : Pt) : Option MTree :=
  ((allChildren t).reverse).find? (hitPred p)

mutual

/-- `all_children` paired with each node's ancestor chain (nearest
parent first).  In the pure-tree embedding a node's `.parent` chain is
its access path, which this computes alongside the pre-order walk;
`anc` is the ancestor chain of the walk's root. -/
def allChildrenCtx (anc : List MTree) : MTree → List (MTree × List MTree)
  | .node d cs => (.node d cs, anc) :: allChildrenCtxL (.node d cs :: anc) cs

/-- The child loop of `allChildrenCtx`. -/
def allChildrenCtxL (anc : List MTree) :
    List MTree → List (MTree × List MTree)
  | [] => []
  | c :: cs => allChildrenCtx anc c ++ allChildrenCtxL anc cs

end

/-- `Morph.morph_at` again, but also returning the hit morph's ancestor
chain (so that the parent walks of `Hand.drop_target_for` and
`Hand.process_mouse_down/up` can be expressed on the pure tree). -/
def morphAtCtx (t : MTree) (p : Pt) : Option (MTree × List MTree) :=
  ((allChildrenCtx [] t).reverse).find? (fun mc => hitPred p mc.1)

/-- The scan predicate of `Hand.morph_at_pointer` (lines 2605-2612) over
the world's direct children: `m.full_bounds.contains_point(...) and not
isinstance(m, Shadow) and m.is_visible`. -/
def scanPred (p : Pt) (m : MTree) : Bool :=
  (fullBounds m).contains_point p && !m.data.isShadow && m.data.isVisible

/-- `Hand.morph_at_pointer` (lines 2605-2612), with the hit morph's
ancestor chain: scan the world's children `[::-1]` for the first
visible non-shadow child containing the pointer and descend with
`morph_at` into it; fall back to the world itself.  The point argument
stands for `self.bounds.origin`, the hand's position.  `none` models
the case where `m.morph_at(...)` returns Python `None` (provably
unreachable, see `morphAtCtx_isSome_of_hitPred`). -/
def handHit (w : MTree) (p : Pt) : Option (MTree × List MTree) :=
  match (w.children.reverse).find? (scanPred p) with
  | some m => (morphAtCtx m p).map (fun hc => (hc.1, hc.2 ++ [w]))
  | none => some (w, [])

/-- `Hand.drop_target_for` (lines 2626-2630): starting from
`morph_at_pointer`, `while target.wants_drop_of(morph) == False:
target = target.parent`.  The while loop over parent pointers is
`find?` over the hit morph followed by its ancestor chain; `none`
models the `AttributeError` the source would raise if the walk stepped
past the root.  `wantsDrop` is the per-morph value of
`wants_drop_of` for the fixed dragged morph (the predicate ignores its
argument in the source: `Morph` line 869 returns `False`, `World` line
3137 returns `True`). -/
def dropTargetFor (w : MTree) (p : Pt) : Option MTree :=
  (handHit w p).bind (fun hc => (hc.1 :: hc.2).find? (fun m => m.data.wantsDrop))

/-- The click-target walk shared by `Hand.process_mouse_down` (lines
2678-2680) and `Hand.process_mouse_up` (lines 2710-2711): from the hit
morph, `while not morph.handles_mouse_click: morph = morph.parent`. -/
def clickTarget (w : MTree) (p : Pt) : Option MTree :=
  (handHit w p).bind
    (fun hc => (hc.1 :: hc.2).find? (fun m => m.data.handlesClick))

/-- Observable callback dispatches of the hand's down/up processing,
identified by morph id: `mouse_down_left`, `mouse_up_left`,
`mouse_click_left`. -/
inductive Ev where
  | down : ℕ → Ev
  | up : ℕ → Ev
  | click : ℕ → Ev
deriving DecidableEq, Repr

/-- `Hand.process_mouse_down` (lines 2652-2688), non-dragging branch,
left button, restricted to its effect on `mouse_down_morph` and the
dispatched callbacks: resolve the click target, record it, dispatch
its down callback.  The menu-dismissal, text-cursor and
`morph_to_grab` bookkeeping touch neither `mouse_down_morph` nor the
down/up/click dispatch and are omitted; `st` is the current
`mouse_down_morph`.  `none` models the crash of the while walk when no
ancestor handles clicks (unreachable under a world root, whose
`handles_mouse_click` is `True`, line 3141). -/
def processMouseDown (w : MTree) (st : Option ℕ) (p : Pt) :
    Option ℕ × List Ev :=
  match clickTarget w p with
  | some m => (some m.data.id, [Ev.down m.data.id])
  | none => (st, [])

/-- `Hand.process_mouse_up` (lines 2690-2726), non-dragging branch,
left button: resolve the click target, dispatch its up callback, and
additionally its click callback iff it `is` the recorded
`mouse_down_morph` (object identity compares ids in the embedding). -/
def processMouseUp (w : MTree) (st : Option ℕ) (p : Pt) : List Ev :=
  match clickTarget w p with
  | some m =>
      Ev.up m.data.id
        :: (if st = some m.data.id then [Ev.click m.data.id] else [])
  | none => []

mutual

/-- `Morph.move_by` (lines 680-686): translate own bounds, recurse into
every child with the same delta.  The `changed()` bracket (lines 682,
686) only appends damage rectangles to a world's dirty list (lines
812-815) and never modifies any morph's bounds, so it has no effect on
the tree state modelled here. -/
def moveBy : MTree → Pt → MTree
  | .node d cs, delta =>
      .node { d with bounds := d.bounds.translate_by delta }
        (moveByL cs delta)

/-- The child loop of `move_by`. -/
def moveByL : List MTree → Pt → List MTree
  | [], _ => []
  | c :: cs, delta => moveBy c delta :: moveByL cs delta

end

/-- `Morph.set_width` (lines 664-668): `bounds.corner =
Point(bounds.origin.x + width, bounds.corner.y)`; the two `changed()`
calls only report damage (see `moveBy`). -/
def setWidth : MTree → ℤ → MTree
  | .node d cs, w =>
      .node
        { d with
            bounds :=
              ⟨d.bounds.origin, ⟨d.bounds.origin.x + w, d.bounds.corner.y⟩⟩ }
        cs

/-- `Morph.set_height` (lines 670-674): `bounds.corner =
Point(bounds.corner.x, bounds.origin.y + height)`. -/
def setHeight : MTree → ℤ → MTree
  | .node d cs, h =>
      .node
        { d with
            bounds :=
              ⟨d.bounds.origin, ⟨d.bounds.corner.x, d.bounds.origin.y + h⟩⟩ }
        cs

/-- `Morph.set_extent` (lines 676-678): `set_width(max(aPoint.x, 0))`
then `set_height(max(aPoint.y, 0))`. -/
def setExtent (t : MTree) (p : Pt) : MTree :=
  setHeight (setWidth t (max p.x 0)) (max p.y 0)

/-- Identifier-indexed store for the pointer-mutating tree operations:
`parent` back-references, `children` lists, per-morph `bounds`,
whether the morph is a `World` instance, and per-world `broken` dirty
lists.  Morphs are identified by naturals (Python object identity). -/
structure SState where
  parent : ℕ → Option ℕ
  children : ℕ → List ℕ
  bnds : ℕ → Rect
  isWorld : ℕ → Bool
  broken : ℕ → List Rect

/-- `Node.add_child` (lines 407-409): `self.children.append(node);
node.parent = self`. -/
def addChild (s : SState) (p m : ℕ) : SState :=
  { s with
      children := fun n => if n = p then s.children p ++ [m] else s.children n,
      parent := fun n => if n = m then some p else s.parent n }

/-- `Node.remove_child` (lines 411-413): `self.children.remove(node)`
(drop the first occurrence; Python raises `ValueError` when absent,
which cannot happen at its call site in `add` under the tree
invariant); `node.parent = None`. -/
def removeChild (s : SState) (p m : ℕ) : SState :=
  { s with
      children := fun n => if n = p then (s.children p).erase m else s.children n,
      parent := fun n => if n = m then none else s.parent n }

/-- `Morph.add` (lines 829-833): detach from the prior parent if any,
then `add_child`. -/
def addMorph (s : SState) (p m : ℕ) : SState :=
  match s.parent m with
  | some q => addChild (removeChild s q m) p m
  | none => addChild s p m

/-- The tree consistency invariant of the data model: a node occurs in
the children list of its parent exactly once and in no other list. -/
def TreeInv (s : SState) : Prop :=
  ∀ c n, (s.children n).count c = (if s.parent c = some n then 1 else 0)

/-- `Node.root` (lines 417-422): walk `parent` references to the
parentless ancestor.  `fuel` bounds the walk's depth (the source
recursion does not terminate on a parent cycle; `none` models that). -/
def rootAux (par : ℕ → Option ℕ) : ℕ → ℕ → Option ℕ
  | 0, m =>
      match par m with
      | none => some m
      | some _ => none
  | fuel + 1, m =>
      match par m with
      | none => some m
      | some q => rootAux par fuel q

/-- `Morph.full_bounds` (lines 644-649) on the identifier store, with a
recursion-depth bound: with `fuel` at least the subtree height this is
the source's recursive merge. -/
def fullBoundsS (s : SState) : ℕ → ℕ → Rect
  | 0, m => s.bnds m
  | fuel + 1, m =>
      (s.children m).foldl (fun r c => r.merge (fullBoundsS s fuel c)) (s.bnds m)

/-- `Morph.changed` (lines 812-815): find the root; if it is a `World`,
append a copy of `bounds` to that world's `broken` list; otherwise do
nothing.  (`copy.copy` makes the appended rectangle an independent
value, which is implicit in the value semantics here.) -/
def changedS (s : SState) (m fuel : ℕ) : SState :=
  match rootAux s.parent fuel m with
  | none => s
  | some r =>
      if s.isWorld r then
        { s with
            broken := fun n =>
              if n = r then s.broken r ++ [s.bnds m] else s.broken n }
      else s

/-- `Morph.full_changed` (lines 817-820): as `changed`, appending
`full_bounds` (computed with child-recursion depth `n`) instead. -/
def fullChangedS (s : SState) (m fuel n : ℕ) : SState :=
  match rootAux s.parent fuel m with
  | none => s
  | some r =>
      if s.isWorld r then
        { s with
            broken := fun q =>
              if q = r then s.broken r ++ [fullBoundsS s n m] else s.broken q }
      else s

/-! Concrete instances used by witnesses and counterexamples.
`MData` fields: id, bounds, isVisible, isShadow, wantsDrop,
handlesClick. -/

/-- An invisible, non-shadow leaf morph at (10,10)-(20,20). -/
def cEx2 : MTree := .node ⟨1, ⟨⟨10, 10⟩, ⟨20, 20⟩⟩, false, false, false, false⟩ []

/-- A visible root morph at (0,0)-(100,100) whose only child is the
invisible `cEx2`. -/
def tEx2 : MTree := .node ⟨0, ⟨⟨0, 0⟩, ⟨100, 100⟩⟩, true, false, false, false⟩ [cEx2]

/-- Leaf sibling added first, bounds (0,0)-(50,50). -/
def aw2 : MTree := .node ⟨2, ⟨⟨0, 0⟩, ⟨50, 50⟩⟩, true, false, false, false⟩ []

/-- Leaf sibling added second, same bounds as `aw2`. -/
def bw2 : MTree := .node ⟨3, ⟨⟨0, 0⟩, ⟨50, 50⟩⟩, true, false, false, false⟩ []

/-- Data of the parent holding `aw2` then `bw2`. -/
def dw2 : MData := ⟨4, ⟨⟨0, 0⟩, ⟨100, 100⟩⟩, true, false, false, false⟩

/-- A draggable-content leaf that accepts no drops. -/
def m3 : MTree := .node ⟨1, ⟨⟨0, 0⟩, ⟨50, 40⟩⟩, true, false, false, false⟩ []

/-- A world (wants_drop_of ≡ True, handles_mouse_click ≡ True) with the
single child `m3`. -/
def w3 : MTree := .node ⟨0, ⟨⟨0, 0⟩, ⟨610, 314⟩⟩, true, false, true, true⟩ [m3]

/-- Click-handling leaf at (0,0)-(10,10). -/
def a4 : MTree := .node ⟨1, ⟨⟨0, 0⟩, ⟨10, 10⟩⟩, true, false, false, true⟩ []

/-- Click-handling leaf at (20,0)-(30,10), disjoint from `a4`. -/
def b4 : MTree := .node ⟨2, ⟨⟨20, 0⟩, ⟨30, 10⟩⟩, true, false, false, true⟩ []

/-- A world with children `a4`, `b4`. -/
def w4 : MTree := .node ⟨0, ⟨⟨0, 0⟩, ⟨100, 100⟩⟩, true, false, true, true⟩ [a4, b4]

/-- A consistent store: morph 0 is the sole child of morph 1. -/
def s1 : SState :=
  ⟨fun c => if c = 0 then some 1 else none,
   fun n => if n = 1 then [0] else [],
   fun _ => ⟨⟨0, 0⟩, ⟨0, 0⟩⟩,
   fun _ => false,
   fun _ => []⟩

/-- A store where morph 5 is a child of the world morph 0. -/
def s5 : SState :=
  ⟨fun c => if c = 5 then some 0 else none,
   fun n => if n = 0 then [5] else [],
   fun n => if n = 5 then ⟨⟨1, 2⟩, ⟨3, 4⟩⟩ else ⟨⟨0, 0⟩, ⟨9, 9⟩⟩,
   fun n => n == 0,
   fun _ => []⟩

/-- `s5` with the root demoted to a plain morph (detached subtree). -/
def s5b : SState := { s5 with isWorld := fun _ => false }

/-- The `all_children` child loop is `flatMap`. -/
theorem allChildrenL_eq (cs : List MTree) :
    allChildrenL cs = cs.flatMap allChildren := by
  induction cs with
  | nil => rfl
  | cons c cs ih => rw [allChildrenL, ih, List.flatMap_cons]

/-- `all_children` on a node, in `flatMap` form. -/
theorem allChildren_node (d : MData) (cs : List MTree) :
    allChildren (.node d cs) = .node d cs :: cs.flatMap allChildren := by
  rw [allChildren, allChildrenL_eq]

/-- The `full_bounds` accumulating loop is `foldl`. -/
theorem fullBoundsL_eq (cs : List MTree) (acc : Rect) :
    fullBoundsL acc cs = cs.foldl (fun r c => r.merge (fullBounds c)) acc := by
  induction cs generalizing acc with
  | nil => rfl
  | cons c cs ih => rw [fullBoundsL, ih, List.foldl_cons]

/-- `full_bounds` on a node, in `foldl` form. -/
theorem fullBounds_node (d : MData) (cs : List MTree) :
    fullBounds (.node d cs)
      = cs.foldl (fun r c => r.merge (fullBounds c)) d.bounds := by
  rw [fullBounds, fullBoundsL_eq]

/-- The `allChildrenCtx` child loop is `flatMap`. -/
theorem allChildrenCtxL_eq (anc : List MTree) (cs : List MTree) :
    allChildrenCtxL anc cs = cs.flatMap (allChildrenCtx anc) := by
  induction cs with
  | nil => rfl
  | cons c cs ih => rw [allChildrenCtxL, ih, List.flatMap_cons]

/-- `allChildrenCtx` on a node, in `flatMap` form. -/
theorem allChildrenCtx_node (anc : List MTree) (d : MData) (cs : List MTree) :
    allChildrenCtx anc (.node d cs)
      = (.node d cs, anc)
          :: cs.flatMap (allChildrenCtx (.node d cs :: anc)) := by
  rw [allChildrenCtx, allChildrenCtxL_eq]

/-- The `move_by` child loop is `map`. -/
theorem moveByL_eq (cs : List MTree) (delta : Pt) :
    moveByL cs delta = cs.map (fun c => moveBy c delta) := by
  induction cs with
  | nil => rfl
  | cons c cs ih => rw [moveByL, ih, List.map_cons]

/-- `move_by` on a node, in `map` form. -/
theorem moveBy_node (d : MData) (cs : List MTree) (delta : Pt) :
    moveBy (.node d cs) delta
      = .node { d with bounds := d.bounds.translate_by delta }
          (cs.map (fun c => moveBy c delta)) := by
  rw [moveBy, moveByL_eq]

mutual

/-- Dropping the ancestor chains from `allChildrenCtx` recovers
`all_children` (the embedding of `morph_at` with chains is faithful). -/
theorem allChildrenCtx_fst : ∀ (anc : List MTree) (t : MTree),
    (allChildrenCtx anc t).map Prod.fst = allChildren t
  | anc, .node d cs => by
      rw [allChildrenCtx, allChildren, List.map_cons]
      rw [allChildrenCtxL_fst (.node d cs :: anc) cs]

/-- List version of `allChildrenCtx_fst`. -/
theorem allChildrenCtxL_fst : ∀ (anc : List MTree) (cs : List MTree),
    (allChildrenCtxL anc cs).map Prod.fst = allChildrenL cs
  | _, [] => rfl
  | anc, c :: cs => by
      rw [allChildrenCtxL, allChildrenL, List.map_append]
      rw [allChildrenCtx_fst anc c, allChildrenCtxL_fst anc cs]

end

/-- `morphAtCtx` is `morph_at` with the hit morph's ancestor chain. -/
theorem morphAtCtx_fst (t : MTree) (p : Pt) :
    (morphAtCtx t p).map Prod.fst = morphAt t p := by
  rw [morphAt, morphAtCtx, ← allChildrenCtx_fst [] t, ← List.map_reverse]
  rw [List.find?_map]
  rfl

mutual

/-- Every entry of `allChildrenCtx anc t` carries a chain that runs
from the entry's morph up through `t` and then `anc`: the node
followed by its chain is some prefix, then `t :: anc`. -/
theorem allChildrenCtx_chain : ∀ (anc : List MTree) (t : MTree)
    (mc : MTree × List MTree), mc ∈ allChildrenCtx anc t →
    ∃ pre, mc.1 :: mc.2 = pre ++ t :: anc
  | anc, .node d cs, mc, hmem => by
      rw [allChildrenCtx] at hmem
      rcases List.mem_cons.mp hmem with h | h
      · subst h
        exact ⟨[], rfl⟩
      · obtain ⟨pre, hp⟩ := allChildrenCtxL_chain (.node d cs :: anc) cs mc h
        exact ⟨pre, hp⟩

/-- List version of `allChildrenCtx_chain`. -/
theorem allChildrenCtxL_chain : ∀ (anc : List MTree) (cs : List MTree)
    (mc : MTree × List MTree), mc ∈ allChildrenCtxL anc cs →
    ∃ pre, mc.1 :: mc.2 = pre ++ anc
  | _, [], mc, h => absurd h (List.not_mem_nil mc)
  | anc, c :: cs, mc, h => by
      rw [allChildrenCtxL] at h
      rcases List.mem_append.mp h with h | h
      · obtain ⟨pre, hp⟩ := allChildrenCtx_chain anc c mc h
        exact ⟨pre ++ [c], by rw [hp]; simp⟩
      · exact allChildrenCtxL_chain anc cs mc h

end

/-- When a morph itself satisfies the hit predicate, `morph_at` (with
chain) finds something, and the found chain ends at that morph — the
loop of `morph_at` always has the receiver as its final candidate. -/
theorem morphAtCtx_exists (m : MTree) (p : Pt) (h : hitPred p m = true) :
    ∃ hit anc pre,
      morphAtCtx m p = some (hit, anc) ∧ hit :: anc = pre ++ [m] := by
  have hmem : (m, ([] : List MTree)) ∈ allChildrenCtx [] m := by
    cases m with
    | node d cs =>
        rw [allChildrenCtx]
        exact List.mem_cons_self _ _
  have hsome :
      (((allChildrenCtx [] m).reverse).find? (fun mc => hitPred p mc.1)).isSome :=
    List.find?_isSome.mpr ⟨(m, []), List.mem_reverse.mpr hmem, h⟩
  obtain ⟨mc, hmc⟩ := Option.isSome_iff_exists.mp hsome
  obtain ⟨pre, hp⟩ :=
    allChildrenCtx_chain [] m mc
      (List.mem_reverse.mp (List.mem_of_find?_eq_some hmc))
  exact ⟨mc.1, mc.2, pre, hmc, hp⟩

/-- A first-match scan over a list containing a satisfying element
succeeds and returns a satisfying element. -/
theorem find?_exists_of_mem {α : Type} {l : List α} {x : α} (f : α → Bool)
    (hx : x ∈ l) (hfx : f x = true) :
    ∃ y, l.find? f = some y ∧ f y = true := by
  obtain ⟨y, hy⟩ := Option.isSome_iff_exists.mp (List.find?_isSome.mpr ⟨x, hx, hfx⟩)
  exact ⟨y, hy, List.find?_some hy⟩

/-- C3: for every dragged morph, drop-target resolution (the ancestor
walk in `Hand.drop_target_for` starting from the morph under the
pointer) terminates and returns a morph whose `wants_drop_of`
predicate is true; the walk cannot exhaust the ancestor chain because
the hit-test fallback is the world root and the world's
`wants_drop_of` always returns true (the hypothesis `hw`). -/
theorem drop_target_resolves (w : MTree) (p : Pt)
    (hw : w.data.wantsDrop = true) :
    ∃ tgt, dropTargetFor w p = some tgt ∧ tgt.data.wantsDrop = true := by
  cases hfind : (w.children.reverse).find? (scanPred p) with
  | none =>
      have hH : handHit w p = some (w, []) := by
        simp only [handHit, hfind]
      have hwmem : w ∈ [w] := List.mem_singleton.mpr rfl
      obtain ⟨tgt, ht, hp⟩ :=
        find?_exists_of_mem (fun t => t.data.wantsDrop) hwmem hw
      refine ⟨tgt, ?_, hp⟩
      simp only [dropTargetFor, hH, Option.bind_some]
      exact ht
  | some m =>
      have hsp : scanPred p m = true := List.find?_some hfind
      have hhit : hitPred p m = true := by
        simp only [scanPred, Bool.and_eq_true] at hsp
        simp only [hitPred, Bool.and_eq_true]
        exact ⟨hsp.1.1, hsp.1.2⟩
      obtain ⟨hit, anc, pre, hctx, hchain⟩ := morphAtCtx_exists m p hhit
      have hH : handHit w p = some (hit, anc ++ [w]) := by
        simp only [handHit, hfind, hctx]
        rfl
      have hwmem : w ∈ hit :: (anc ++ [w]) := by simp
      obtain ⟨tgt, ht, hp⟩ :=
        find?_exists_of_mem (fun t => t.data.wantsDrop) hwmem hw
      refine ⟨tgt, ?_, hp⟩
      simp only [dropTargetFor, hH, Option.bind_some]
      exact ht

/-- Witness for C3: on the concrete world `w3` (whose `wants_drop_of`
is true) with the pointer at (10,10) over the non-accepting child
`m3`, the walk resolves to a morph that accepts the drop. -/
theorem drop_target_resolves_witness :
    w3.data.wantsDrop = true ∧
      ∃ tgt, dropTargetFor w3 ⟨10, 10⟩ = some tgt ∧
        tgt.data.wantsDrop = true :=
  ⟨rfl, drop_target_resolves w3 ⟨10, 10⟩ rfl⟩

/-- C4: a pointer-down at a point whose click resolution (hit-test
plus walk to the nearest click-handling ancestor) is `X`, followed by
a pointer-up resolving to `Y`, dispatches the down callback on `X`;
the up dispatches on `Y`, together with exactly one click callback on
`X` when `Y` is the same morph, and no click callback at all when `Y`
is a different morph. -/
theorem click_dispatch (w X Y : MTree) (p1 p2 : Pt) (st0 : Option ℕ)
    (hX : clickTarget w p1 = some X) (hY : clickTarget w p2 = some Y) :
    (processMouseDown w st0 p1).2 = [Ev.down X.data.id] ∧
    (Y.data.id = X.data.id →
      processMouseUp w (processMouseDown w st0 p1).1 p2
        = [Ev.up X.data.id, Ev.click X.data.id]) ∧
    (Y.data.id ≠ X.data.id →
      processMouseUp w (processMouseDown w st0 p1).1 p2
          = [Ev.up Y.data.id] ∧
        ∀ i, Ev.click i ∉ processMouseUp w (processMouseDown w st0 p1).1 p2) := by
  have hdown : processMouseDown w st0 p1
      = (some X.data.id, [Ev.down X.data.id]) := by
    simp only [processMouseDown, hX]
  have hup : ∀ st, processMouseUp w st p2
      = Ev.up Y.data.id
          :: (if st = some Y.data.id then [Ev.click Y.data.id] else []) :=
    fun st => by simp only [processMouseUp, hY]
  refine ⟨by rw [hdown], fun he => ?_, fun hne => ?_⟩
  · rw [hdown, hup, he]
    simp
  · rw [hdown, hup]
    have hcond : ¬((some X.data.id : Option ℕ) = some Y.data.id) := by
      intro h
      exact hne (Option.some.inj h).symm
    rw [if_neg hcond]
    exact ⟨rfl, by intro i; simp⟩

/-- Witness for C4: in the concrete world `w4`, down at (5,5) resolves
to `a4`; up at (5,5) resolves to `a4` again and dispatches up plus
exactly one click on it; up at (25,5) instead resolves to `b4` and
dispatches only the up callback. -/
theorem click_dispatch_witness :
    clickTarget w4 ⟨5, 5⟩ = some a4 ∧
    clickTarget w4 ⟨25, 5⟩ = some b4 ∧
    processMouseUp w4 (processMouseDown w4 none ⟨5, 5⟩).1 ⟨5, 5⟩
      = [Ev.up 1, Ev.click 1] ∧
    processMouseUp w4 (processMouseDown w4 none ⟨5, 5⟩).1 ⟨25, 5⟩
      = [Ev.up 2] :=
  ⟨rfl, rfl,
    (click_dispatch w4 a4 a4 ⟨5, 5⟩ ⟨5, 5⟩ none rfl rfl).2.1 rfl,
    ((click_dispatch w4 a4 b4 ⟨5, 5⟩ ⟨25, 5⟩ none rfl rfl).2.2
      (by decide)).1⟩

/-- C1: in any consistent tree configuration, after `P.add(m)` the
morph `m`'s parent is `P`, `P`'s children list contains `m` exactly
once and as its last element, and no other node's children list
contains `m` (in particular the former parent's no longer does). -/
theorem add_reparents (s : SState) (P m : ℕ) (hInv : TreeInv s) :
    (addMorph s P m).parent m = some P ∧
    List.count m ((addMorph s P m).children P) = 1 ∧
    ((addMorph s P m).children P).getLast? = some m ∧
    ∀ q, q ≠ P → m ∉ (addMorph s P m).children q := by
  cases hpm : s.parent m with
  | none =>
      have h0 : ∀ n, List.count m (s.children n) = 0 := fun n => by
        have h := hInv m n
        rw [hpm] at h
        simpa using h
      refine ⟨by simp [addMorph, hpm, addChild], ?_, ?_, ?_⟩
      · simp only [addMorph, hpm, addChild, if_pos rfl, if_true,
          eq_self_iff_true]
        rw [List.count_append, h0 P]
        simp [List.count_singleton_self]
      · simp only [addMorph, hpm, addChild, if_pos rfl, if_true,
          eq_self_iff_true]
        exact List.getLast?_concat _
      · intro q hq
        simp only [addMorph, hpm, addChild, if_neg hq]
        exact List.count_eq_zero.mp (h0 q)
  | some q0 =>
      have h1 : List.count m (s.children q0) = 1 := by
        have h := hInv m q0
        rw [hpm] at h
        simpa using h
      have h0 : ∀ n, n ≠ q0 → List.count m (s.children n) = 0 := fun n hn => by
        have h := hInv m n
        rw [hpm, if_neg (fun hc => hn (Option.some.inj hc).symm)] at h
        exact h
      refine ⟨by simp [addMorph, hpm, addChild, removeChild], ?_, ?_, ?_⟩
      · simp only [addMorph, hpm, addChild, removeChild, if_pos rfl, if_true,
          eq_self_iff_true]
        rw [List.count_append]
        by_cases hP : P = q0
        · subst hP
          rw [if_pos rfl, List.count_erase_self, h1]
          simp [List.count_singleton_self]
        · rw [if_neg hP, h0 P hP]
          simp [List.count_singleton_self]
      · simp only [addMorph, hpm, addChild, removeChild, if_pos rfl, if_true,
          eq_self_iff_true]
        exact List.getLast?_concat _
      · intro q hq
        simp only [addMorph, hpm, addChild, removeChild, if_neg hq]
        by_cases hq0 : q = q0
        · subst hq0
          rw [if_pos rfl]
          refine List.count_eq_zero.mp ?_
          rw [List.count_erase_self, h1]
        · rw [if_neg hq0]
          exact List.count_eq_zero.mp (h0 q hq0)

/-- Witness for C1 on a concrete consistent store: morph 0, initially
the sole child of morph 1, is added to morph 2. -/
theorem add_reparents_witness :
    TreeInv s1 ∧
    (addMorph s1 2 0).parent 0 = some 2 ∧
    List.count 0 ((addMorph s1 2 0).children 2) = 1 ∧
    ((addMorph s1 2 0).children 2).getLast? = some 0 ∧
    ∀ q, q ≠ 2 → 0 ∉ (addMorph s1 2 0).children q := by
  have hinv : TreeInv s1 := by
    intro c n
    simp only [s1]
    by_cases hc : c = 0
    · subst hc
      by_cases hn : n = 1
      · simp [hn]
      · simp [hn, Ne.symm hn]
    · by_cases hn : n = 1
      · simp [hn, hc, List.count_cons, Ne.symm hc]
      · simp [hn, hc]
  obtain ⟨h1, h2, h3, h4⟩ := add_reparents s1 2 0 hinv
  exact ⟨hinv, h1, h2, h3, h4⟩

/-- C5: `changed()` / `full_changed()` walk to the morph's root
(`hr`); when the root is a World they append a copy of the morph's
bounds (respectively full bounds) to that world's dirty list, leaving
every other broken list and all morph state (parent, children, bounds)
unchanged; when the root is not a World they are a complete no-op. -/
theorem changed_silent_noop (s : SState) (m fuel n r : ℕ)
    (hr : rootAux s.parent fuel m = some r) :
    (s.isWorld r = true →
      (changedS s m fuel).broken r = s.broken r ++ [s.bnds m] ∧
      (fullChangedS s m fuel n).broken r
        = s.broken r ++ [fullBoundsS s n m] ∧
      (∀ q, q ≠ r →
        (changedS s m fuel).broken q = s.broken q ∧
        (fullChangedS s m fuel n).broken q = s.broken q) ∧
      (changedS s m fuel).parent = s.parent ∧
      (changedS s m fuel).children = s.children ∧
      (changedS s m fuel).bnds = s.bnds ∧
      (fullChangedS s m fuel n).parent = s.parent ∧
      (fullChangedS s m fuel n).children = s.children ∧
      (fullChangedS s m fuel n).bnds = s.bnds) ∧
    (s.isWorld r = false →
      changedS s m fuel = s ∧ fullChangedS s m fuel n = s) := by
  constructor
  · intro hworld
    have hc : changedS s m fuel
        = { s with broken := fun q =>
              if q = r then s.broken r ++ [s.bnds m] else s.broken q } := by
      simp only [changedS, hr, hworld, if_true]
    have hf : fullChangedS s m fuel n
        = { s with broken := fun q =>
              if q = r then s.broken r ++ [fullBoundsS s n m]
              else s.broken q } := by
      simp only [fullChangedS, hr, hworld, if_true]
    rw [hc, hf]
    exact ⟨by simp, by simp, fun q hq => ⟨by simp [hq], by simp [hq]⟩,
      rfl, rfl, rfl, rfl, rfl, rfl⟩
  · intro hworld
    have hw2 : (s.isWorld r = true) = False := by simp [hworld]
    constructor
    · simp only [changedS, hr, hw2, if_false]
    · simp only [fullChangedS, hr, hw2, if_false]

/-- Witness for C5: in the concrete store `s5` the walk from morph 5
reaches the world 0 and `changed`/`full_changed` append to its dirty
list; in `s5b` (same tree, root not a World) both are no-ops. -/
theorem changed_silent_noop_witness :
    rootAux s5.parent 3 5 = some 0 ∧ s5.isWorld 0 = true ∧
    (changedS s5 5 3).broken 0 = s5.broken 0 ++ [s5.bnds 5] ∧
    (fullChangedS s5 5 3 1).broken 0 = s5.broken 0 ++ [fullBoundsS s5 1 5] ∧
    s5b.isWorld 0 = false ∧
    changedS s5b 5 3 = s5b ∧ fullChangedS s5b 5 3 1 = s5b := by
  refine ⟨rfl, rfl, ?_, ?_, rfl, ?_, ?_⟩
  · exact ((changed_silent_noop s5 5 3 1 0 rfl).1 rfl).1
  · exact ((changed_silent_noop s5 5 3 1 0 rfl).1 rfl).2.1
  · exact ((changed_silent_noop s5b 5 3 1 0 rfl).2 rfl).1
  · exact ((changed_silent_noop s5b 5 3 1 0 rfl).2 rfl).2

mutual

/-- `move_by(d)` then `move_by(-d)` is the identity on a morph tree. -/
theorem moveBy_neg_aux : ∀ (t : MTree) (d : Pt),
    moveBy (moveBy t d) (Pt.neg d) = t
  | .node dd cs, d => by
      simp only [moveBy]
      rw [moveByL_neg_aux cs d]
      have hb : (dd.bounds.translate_by d).translate_by (Pt.neg d)
          = dd.bounds := by
        cases hob : dd.bounds with
        | mk o c =>
            cases o with
            | mk ox oy =>
                cases c with
                | mk cx cy =>
                    simp only [Rect.translate_by, Pt.add, Pt.neg,
                      Rect.mk.injEq, Pt.mk.injEq]
                    omega
      rw [hb]

/-- List version of `moveBy_neg_aux`. -/
theorem moveByL_neg_aux : ∀ (cs : List MTree) (d : Pt),
    moveByL (moveByL cs d) (Pt.neg d) = cs
  | [], _ => rfl
  | c :: cs, d => by
      simp only [moveByL]
      rw [moveBy_neg_aux c d, moveByL_neg_aux cs d]

end

/-- C6: for every morph tree and every delta point, `move_by(d)`
followed by `move_by(-d)` restores the morph tree — its bounds and,
since `move_by` recurses, every descendant's bounds — exactly. -/
theorem move_by_inverse (t : MTree) (d : Pt) :
    moveBy (moveBy t d) (Pt.neg d) = t :=
  moveBy_neg_aux t d

/-- C2 counterexample: `morph_at` does not check visibility.  In the
tree `tEx2` (a visible root whose only child `cEx2` is invisible and
contains the probe point), the claim predicts the scan skips the
invisible child and falls through to the visible root, but the source
returns the invisible child. -/
theorem morph_at_visibility_counterexample :
    morphAt tEx2 ⟨15, 15⟩ = some cEx2 ∧
    cEx2.data.isVisible = false ∧
    tEx2.data.isVisible = true ∧
    hitPred ⟨15, 15⟩ tEx2 = true :=
  ⟨rfl, rfl, rfl, rfl⟩

/-- C2 amended: `morph_at(point)` scans `all_children` reversed
(front-most first) and returns the first non-shadow morph whose
`full_bounds` contains the point, with no visibility check; the node
itself is the scan's final candidate, so when nothing nested matches
it is returned iff it matches itself (else the result is `None`).
Consequently, for leaf siblings `A` added before `B`, both containing
the point, the scan returns `B`. -/
theorem morph_at_scan_order :
    (∀ (d : MData) (A B : MTree) (p : Pt),
        A.children = [] → B.children = [] →
        (fullBounds A).contains_point p = true →
        hitPred p B = true →
        morphAt (.node d [A, B]) p = some B) ∧
    (∀ (t : MTree) (p : Pt),
        (∀ c ∈ t.children, ∀ x ∈ allChildren c, hitPred p x = false) →
        morphAt t p = if hitPred p t then some t else none) := by
  constructor
  · intro d A B p hA hB hcA hhB
    cases A with
    | node da ca =>
        cases B with
        | node db cb =>
            simp only [MTree.children] at hA hB
            subst hA
            subst hB
            have hrev :
                (allChildren (MTree.node d [.node da [], .node db []])).reverse
                  = [.node db [], .node da [],
                      .node d [.node da [], .node db []]] := by
              simp [allChildren, allChildrenL]
            rw [morphAt, hrev, List.find?_cons_of_pos _ hhB]
  · intro t p hnone
    cases t with
    | node d cs =>
        rw [morphAt, allChildren_node, List.reverse_cons, List.find?_append]
        have h1 : ((cs.flatMap allChildren).reverse).find? (hitPred p)
            = none := by
          rw [List.find?_eq_none]
          intro x hx
          rw [List.mem_reverse] at hx
          obtain ⟨c, hc, hxc⟩ := List.mem_flatMap.mp hx
          have hfalse := hnone c hc x hxc
          simp [hfalse]
        rw [h1]
        by_cases hp : hitPred p (.node d cs) = true
        · rw [List.find?_cons_of_pos _ hp, if_pos hp]
          rfl
        · rw [List.find?_cons_of_neg _ hp, if_neg hp]
          rfl

/-- Witness for C2 (amended): at point (5,5) in the concrete parent
holding `aw2` then `bw2` (both containing the point), the scan
returns the later sibling `bw2`. -/
theorem morph_at_scan_order_witness :
    (fullBounds aw2).contains_point ⟨5, 5⟩ = true ∧
    hitPred ⟨5, 5⟩ bw2 = true ∧
    morphAt (.node dw2 [aw2, bw2]) ⟨5, 5⟩ = some bw2 :=
  ⟨rfl, rfl, morph_at_scan_order.1 dw2 aw2 bw2 ⟨5, 5⟩ rfl rfl rfl rfl⟩

/-- C7: rectangle point containment is half-open — `contains_point`
holds iff `origin ≤ point` and `point < corner` componentwise; in
particular (10,5) is outside Rectangle((0,0),(10,10)) and (9,9) is
inside. -/
theorem contains_point_halfopen :
    (∀ (r : Rect) (p : Pt),
        r.contains_point p = true ↔
          (r.origin.x ≤ p.x ∧ r.origin.y ≤ p.y ∧
            p.x < r.corner.x ∧ p.y < r.corner.y)) ∧
    Rect.contains_point ⟨⟨0, 0⟩, ⟨10, 10⟩⟩ ⟨10, 5⟩ = false ∧
    Rect.contains_point ⟨⟨0, 0⟩, ⟨10, 10⟩⟩ ⟨9, 9⟩ = true := by
  refine ⟨fun r p => ?_, rfl, rfl⟩
  simp only [Rect.contains_point, Pt.le, Pt.lt, Bool.and_eq_true,
    decide_eq_true_eq]
  tauto

/-- C8: the intersection of two rectangles is contained in each of
them and their merge contains each of them, in the
`contains_rectangle` sense (componentwise origin ≤ origin and
corner ≤ corner). -/
theorem intersect_merge_containment (A B : Rect) :
    A.contains_rectangle (A.intersect B) = true ∧
    B.contains_rectangle (A.intersect B) = true ∧
    (A.merge B).contains_rectangle A = true ∧
    (A.merge B).contains_rectangle B = true := by
  simp only [Rect.contains_rectangle, Rect.intersect, Rect.merge, Pt.le,
    Pt.pmax, Pt.pmin, Bool.and_eq_true, decide_eq_true_eq]
  omega

/-- C9 (code evaluation at the failing input): the source's
`Point.rotate` maps (1,0) with direction right about center (0,0) to
`Point(-offset.y, offset.y) + center = (0,0)` — and likewise for
left — which does not preserve the squared distance to the center
(0 versus 1), so it is not a ±90° rotation about the center. -/
theorem rotate_named_not_rotation :
    Pt.rotateNamed ⟨1, 0⟩ Dir.right ⟨0, 0⟩ = ⟨0, 0⟩ ∧
    Pt.rotateNamed ⟨1, 0⟩ Dir.left ⟨0, 0⟩ = ⟨0, 0⟩ ∧
    Pt.sqDist (Pt.rotateNamed ⟨1, 0⟩ Dir.right ⟨0, 0⟩) ⟨0, 0⟩ ≠
      Pt.sqDist ⟨1, 0⟩ ⟨0, 0⟩ := by
  refine ⟨rfl, rfl, ?_⟩
  decide

/-- C10: `set_extent(p)` clamps each component at zero — afterwards
the extent equals (max(p.x,0), max(p.y,0)), hence is never negative,
while the origin is unchanged. -/
theorem set_extent_clamps (t : MTree) (p : Pt) :
    (setExtent t p).data.bounds.extent = ⟨max p.x 0, max p.y 0⟩ ∧
    (setExtent t p).data.bounds.origin = t.data.bounds.origin ∧
    0 ≤ (setExtent t p).data.bounds.extent.x ∧
    0 ≤ (setExtent t p).data.bounds.extent.y := by
  cases t with
  | node d cs =>
      simp only [setExtent, setWidth, setHeight, MTree.data, Rect.extent,
        Pt.sub, Pt.mk.injEq]
      refine ⟨⟨by omega, by omega⟩, by trivial, by omega, by omega⟩

end Morphic
